import Mathlib

/-!
Verification of the seen-article deduplication and matching pipeline of
`monitor_deniky.py` (a single-pass RSS keyword monitor).

The Python source is shallowly embedded below.  Feed retrieval
(`feedparser.parse`) is not modelled: the fetched entry sequence is an
explicit input.  File I/O is modelled by passing file contents as values
(`Option String` for a file that may be absent).  Python dictionaries are
modelled by insertion-ordered association lists, Python `None` by
`Option.none`, and Python truthiness of strings by the empty-string test.
-/

/-- One feed entry as `feedparser` hands it to the script: each field of
interest is either absent (`none`, Python `entry.get(...)` returning the
default) or a string.  Mirrors the keys read by the source:
`title`, `summary`, `description`, `link`, `id`, `published`, `updated`. -/
structure Entry where
  title : Option String
  summary : Option String
  description : Option String
  link : Option String
  id : Option String
  published : Option String
  updated : Option String
deriving DecidableEq, Repr

/-- A match record, as built in `fetch_source` (lines 261-267):
keys `source`, `title`, `link`, `summary`, `published`. -/
structure Match where
  source : String
  title : String
  link : String
  summary : String
  published : String
deriving DecidableEq, Repr

/-- Python `a or b` for two strings: `a` if it is truthy (non-empty), else `b`. -/
def pyOrS (a b : String) : String :=
  if a = "" then b else a

/-- Python `a or b` where `a` and `b` may be `None`: returns `b` when `a` is
falsy (`None` or the empty string). -/
def pyOrOS (a b : Option String) : Option String :=
  match a with
  | some s => if s = "" then b else some s
  | none => b

/-- Python truthiness of an optional string (`None` and `""` are falsy). -/
def pyTruthy (o : Option String) : Bool :=
  match o with
  | some s => decide (s ≠ "")
  | none => false

/-- Python `str.lower`, character by character, restricted to the repertoire
that can occur in this configuration: Basic Latin, Latin-1 Supplement and
Latin Extended-A (covers Slovak diacritics).  Other characters are fixed. -/
def pyCharLower (c : Char) : Char :=
  let n := c.toNat
  if 0x41 ≤ n ∧ n ≤ 0x5A then Char.ofNat (n + 0x20)
  else if 0xC0 ≤ n ∧ n ≤ 0xDE ∧ n ≠ 0xD7 then Char.ofNat (n + 0x20)
  else if 0x100 ≤ n ∧ n ≤ 0x137 ∧ n % 2 = 0 then Char.ofNat (n + 1)
  else if 0x139 ≤ n ∧ n ≤ 0x148 ∧ n % 2 = 1 then Char.ofNat (n + 1)
  else if 0x14A ≤ n ∧ n ≤ 0x177 ∧ n % 2 = 0 then Char.ofNat (n + 1)
  else if n = 0x178 then Char.ofNat 0xFF
  else if 0x179 ≤ n ∧ n ≤ 0x17E ∧ n % 2 = 1 then Char.ofNat (n + 1)
  else c

/-- Python `str.lower` on a whole string. -/
def pyLower (s : String) : String :=
  String.mk (s.data.map pyCharLower)

/-- Does `needle` start `hay`?  (Helper for the substring test.) -/
def startsWith : List Char → List Char → Bool
  | [], _ => true
  | _ :: _, [] => false
  | a :: as, b :: bs => if a = b then startsWith as bs else false

/-- Substring containment on character lists (helper for Python `in`). -/
def containsSub (needle : List Char) : List Char → Bool
  | [] => needle.isEmpty
  | c :: rest => startsWith needle (c :: rest) || containsSub needle rest

/-- Python `needle in hay` on strings: substring containment. -/
def pyIn (needle hay : String) : Bool :=
  containsSub needle.data hay.data

/-- Python whitespace characters stripped by `str.strip()` (ASCII part;
the configuration's data contains no exotic Unicode whitespace). -/
def isPyWs (c : Char) : Bool :=
  c = ' ' || c = '\t' || c = '\n' || c = '\r' || c = '\x0b' || c = '\x0c'

/-- Python `str.strip()`: remove leading and trailing whitespace. -/
def pyStrip (s : String) : String :=
  String.mk (((s.data.dropWhile isPyWs).reverse.dropWhile isPyWs).reverse)

/-- `normalize_text(text)` (lines 110-114): empty (falsy) text maps to `""`,
anything else is lower-cased. -/
def normalize_text (text : String) : String :=
  if text = "" then "" else pyLower text

/-- `article_matches_keywords(entry, keywords)` (lines 117-130):
builds the haystack `title + " " + summary` (with `summary` the Python value
`entry.get("summary", "") or entry.get("description", "")`), lower-cases it,
and reports whether some lower-cased keyword is a substring.  The Python
`for`-loop with early `return True` is `List.any`. -/
def article_matches_keywords (entry : Entry) (keywords : List String) : Bool :=
  let title := entry.title.getD ""
  let summary := pyOrS (entry.summary.getD "") (entry.description.getD "")
  let haystack := normalize_text (title ++ " " ++ summary)
  keywords.any (fun kw => pyIn (normalize_text kw) haystack)

/-- The global keyword list `KEYWORDS` (lines 34-50).  The source writes the
adjacent literals `"šutaj eštok" "eštok"`, which Python concatenates into the
single run-together term reproduced here. -/
def KEYWORDS : List String :=
  ["ministerstvo vnútra", "minister vnútra", "cestovný pas", "pasy",
   "doklady", "eDoklady", "krízová situácia", "mimoriadna situácia",
   "bezpečnosť", "útok", "atentát", "šutaj eštokeštok", "hamran"]

/-- The persistent seen-state: a mapping from source name to the ordered list
of already-seen identifiers.  A Python `dict` is an insertion-ordered map
with unique keys; we embed it as an association list. -/
abbrev Seen := List (String × List String)

/-- Dictionary lookup `seen[name]` / `name in seen`: `none` models a missing
key (a `KeyError` on subscription). -/
def lookupSeen (seen : Seen) (name : String) : Option (List String) :=
  match seen with
  | [] => none
  | (k, v) :: rest => if k = name then some v else lookupSeen rest name

/-- Dictionary update of an existing key's value in place (Python mutates the
list bound to `seen[name]`; updating an existing key keeps its position). -/
def updateSeen (seen : Seen) (name : String) (v : List String) : Seen :=
  match seen with
  | [] => []
  | (k, w) :: rest =>
    if k = name then (k, v) :: rest else (k, w) :: updateSeen rest name v

/-- `ensure_source_key(seen, source_name)` (lines 203-207): if the key is
missing, bind it to the empty list (a new `dict` key is inserted at the end). -/
def ensure_source_key (seen : Seen) (name : String) : Seen :=
  match lookupSeen seen name with
  | some _ => seen
  | none => seen ++ [(name, [])]

/-- The identifier of an entry (lines 242-243):
`link = entry.get("link") or ""`, `uid = link or entry.get("id") or
entry.get("title")`. -/
def uid_of (e : Entry) : Option String :=
  let link := e.link.getD ""
  pyOrOS (some link) (pyOrOS e.id e.title)

/-- The match record appended in `fetch_source` (lines 256-267): trimmed
title and summary, published preferring `published` over `updated`, and the
`link` variable (possibly empty when the identifier came from id or title). -/
def mkMatch (name : String) (e : Entry) : Match :=
  { source := name
    title := pyStrip (e.title.getD "")
    link := e.link.getD ""
    summary := pyStrip (pyOrS (e.summary.getD "") (e.description.getD ""))
    published := pyOrS (e.published.getD "") (e.updated.getD "") }

/-- The per-entry loop of `fetch_source` (lines 241-267), state-passing over
the seen mapping and the accumulated `matches` list.  `none` models the
`KeyError` raised by `seen[name]` when the key is missing.  Per entry:
a falsy identifier skips the entry; an identifier already in `seen[name]`
skips the entry; otherwise the identifier is appended to `seen[name]`
unconditionally and a match record is appended iff the keyword test holds. -/
def processEntries (keywords : List String) (name : String) :
    List Entry → Seen → List Match → Option (Seen × List Match)
  | [], seen, acc => some (seen, acc)
  | e :: rest, seen, acc =>
    match uid_of e with
    | none => processEntries keywords name rest seen acc
    | some u =>
      if u = "" then processEntries keywords name rest seen acc
      else
        match lookupSeen seen name with
        | none => none
        | some lst =>
          if u ∈ lst then processEntries keywords name rest seen acc
          else
            processEntries keywords name rest (updateSeen seen name (lst ++ [u]))
              (if article_matches_keywords e keywords then acc ++ [mkMatch name e] else acc)

/-- `fetch_source(source, global_keywords, seen)` (lines 210-270) with the
network fetch replaced by the explicit entry list: combines the keyword
lists (`global_keywords + extra_keywords`) and runs the per-entry loop.
(The early `return []` on an empty entry list coincides with the loop on an
empty list.) -/
def fetch_source (name : String) (extra_keywords global_keywords : List String)
    (entries : List Entry) (seen : Seen) : Option (Seen × List Match) :=
  processEntries (global_keywords ++ extra_keywords) name entries seen []

/-- A configured source together with the entries its feed yielded this run. -/
structure SourceFeed where
  name : String
  extra_keywords : List String
  entries : List Entry

/-- The Runner's per-source loop in `main` (lines 288-291): for each source,
`ensure_source_key` then `fetch_source`, extending `all_matches`. -/
def runSources (global_keywords : List String) :
    List SourceFeed → Seen → List Match → Option (Seen × List Match)
  | [], seen, acc => some (seen, acc)
  | s :: rest, seen, acc =>
    let seen1 := ensure_source_key seen s.name
    match fetch_source s.name s.extra_keywords global_keywords s.entries seen1 with
    | none => none
    | some (seen2, ms) => runSources global_keywords rest seen2 (acc ++ ms)

/-- `load_seen(path)` (lines 92-101): the file's content is `none` when the
file is absent; `parseJson` models `json.load`, with `none` for any parse
failure (the `except Exception` branch). -/
def load_seen (file : Option String) (parseJson : String → Option Seen) : Seen :=
  match file with
  | none => []
  | some content =>
    match parseJson content with
    | some m => m
    | none => []

/-- The map `c ↦ if c = ';' then ',' else c` underlying
`.replace(";", ",")` on a single-character pattern. -/
def escSemi (c : Char) : Char :=
  if c = ';' then ',' else c

/-- `.replace(";", ",")` (lines 186-189): with a one-character pattern this
is the character-wise map replacing every `;` by `,`. -/
def sanitize (s : String) : String :=
  String.mk (s.data.map escSemi)

/-- The four sanitized free-text columns plus newline of one log record
(line 191, after the leading `run_time;`). -/
def lineBody (m : Match) : String :=
  sanitize m.source ++ ";" ++ sanitize m.published ++ ";" ++
    sanitize m.title ++ ";" ++ sanitize m.link ++ "\n"

/-- One written log record (line 191):
`f"{run_time};{source};{published};{title};{link}\n"` with the free-text
fields sanitized. -/
def formatLine (run_time : String) (m : Match) : String :=
  run_time ++ ";" ++ lineBody m

/-- The list of lines built by the loop of `append_alert_log`
(lines 183-192): one line per match, all with the same `run_time`. -/
def alertLines (run_time : String) (ms : List Match) : List String :=
  ms.map (formatLine run_time)

/-- The header written on first-ever write (line 178). -/
def alertHeader : String :=
  "run_time;source;published;title;link\n"

/-- `append_alert_log(matches)` (lines 173-200) as a function on the log
file's content (`none` = file absent): first-ever write emits the header,
then the built lines are appended. -/
def append_alert_log (run_time : String) (ms : List Match)
    (file : Option String) : String :=
  match file with
  | some content => content ++ String.join (alertLines run_time ms)
  | none => alertHeader ++ String.join (alertLines run_time ms)

/-- The effect of `main` (lines 278-309) on the seen mapping and the alert
log, with the feed contents, the loaded seen mapping and the log file content
as inputs.  Result: final seen mapping, final log content, and whether the
notifier (`send_email`) was invoked.  When `all_matches` is empty, `main`
returns before touching the log or the notifier (lines 296-298). -/
def main_model (feeds : List SourceFeed) (seen0 : Seen) (log : Option String)
    (run_time : String) : Option (Seen × Option String × Bool) :=
  match runSources KEYWORDS feeds seen0 [] with
  | none => none
  | some (seen1, all_matches) =>
    if all_matches = [] then some (seen1, log, false)
    else some (seen1, some (append_alert_log run_time all_matches log), true)

/-- The matcher as claim C3 words it: summary falls back from the `summary`
field to the `description` field only if the former is absent.
Modelled from the claim for comparison with `article_matches_keywords`. -/
def matchesSpecC3 (entry : Entry) (keywords : List String) : Bool :=
  let title := entry.title.getD ""
  let summary :=
    match entry.summary with
    | some s => s
    | none => entry.description.getD ""
  let haystack := pyLower (title ++ " " ++ summary)
  keywords.any (fun kw => pyIn (pyLower kw) haystack)

/-- Number of `;`-separated columns: splitting a character list at `;`. -/
def splitOnSemi : List Char → List (List Char)
  | [] => [[]]
  | c :: rest =>
    if c = ';' then [] :: splitOnSemi rest
    else
      match splitOnSemi rest with
      | [] => [[c]]
      | g :: gs => (c :: g) :: gs

/-- A sample entry whose identifier comes from its link. -/
def sampleEntryA : Entry :=
  ⟨some "Nové pasy na ministerstve vnútra", none, none, some "https://x/a",
    none, none, none⟩

/-- A second sample entry, with the short identifier "a". -/
def sampleEntryB : Entry :=
  ⟨some "t", none, none, some "a", none, none, none⟩

/-- A sample match record whose title contains the reserved delimiter. -/
def sampleMatch : Match :=
  ⟨"SME", "Nové pasy; dnes", "https://x/a", "s", "p"⟩

/-- A JSON reader that fails on every input (models a corrupted file). -/
def noParse : String → Option Seen := fun _ => none

/-- A JSON reader that succeeds with a fixed mapping. -/
def someParse : String → Option Seen := fun _ => some [("SME", ["a"])]

/-! ## Helper lemmas -/

/-- `normalize_text` is lower-casing (the empty-string branch is harmless). -/
theorem normalize_text_eq (s : String) : normalize_text s = pyLower s := by
  unfold normalize_text
  split
  · rename_i h
    subst h
    rfl
  · rfl

theorem lookup_update_self (seen : Seen) (name : String) (v lst : List String)
    (h : lookupSeen seen name = some lst) :
    lookupSeen (updateSeen seen name v) name = some v := by
  induction seen with
  | nil => simp [lookupSeen] at h
  | cons kv rest ih =>
    obtain ⟨k, w⟩ := kv
    by_cases hk : k = name
    · simp [lookupSeen, updateSeen, hk]
    · simp only [lookupSeen, updateSeen, if_neg hk] at h ⊢
      exact ih h

theorem lookup_update_other (seen : Seen) (name n : String) (v : List String)
    (hne : n ≠ name) :
    lookupSeen (updateSeen seen name v) n = lookupSeen seen n := by
  induction seen with
  | nil => rfl
  | cons kv rest ih =>
    obtain ⟨k, w⟩ := kv
    by_cases hk : k = name
    · subst hk
      simp [lookupSeen, updateSeen, Ne.symm hne]
    · simp only [updateSeen, if_neg hk, lookupSeen]
      split
      · rfl
      · exact ih

theorem lookup_append_of_some (seen rest : Seen) (n : String) (l : List String)
    (h : lookupSeen seen n = some l) :
    lookupSeen (seen ++ rest) n = some l := by
  induction seen with
  | nil => simp [lookupSeen] at h
  | cons kv s ih =>
    obtain ⟨k, w⟩ := kv
    simp only [lookupSeen, List.cons_append] at h ⊢
    split at h
    · rename_i hk
      simp [lookupSeen, hk, h]
    · rename_i hk
      simp only [lookupSeen, if_neg hk]
      exact ih h

theorem lookup_ensure_of_some (seen : Seen) (name n : String) (l : List String)
    (h : lookupSeen seen n = some l) :
    lookupSeen (ensure_source_key seen name) n = some l := by
  unfold ensure_source_key
  split
  · exact h
  · exact lookup_append_of_some seen [(name, [])] n l h

theorem lookup_ensure_self (seen : Seen) (name : String) :
    ∃ l, lookupSeen (ensure_source_key seen name) name = some l := by
  unfold ensure_source_key
  split
  · rename_i l h
    exact ⟨l, h⟩
  · rename_i h
    induction seen with
    | nil => exact ⟨[], by simp [lookupSeen]⟩
    | cons kv rest ih =>
      obtain ⟨k, w⟩ := kv
      simp only [lookupSeen] at h
      split at h
      · exact absurd h (by simp)
      · rename_i hk
        simpa only [List.cons_append, lookupSeen, if_neg hk] using ih h

/-- During the per-entry loop, a source's recorded identifier list only ever
grows by appending at the end. -/
theorem processEntries_grows (kw : List String) (name : String)
    (entries : List Entry) :
    ∀ (seen : Seen) (acc : List Match) (seen2 : Seen) (ms : List Match)
      (n : String) (l : List String),
      processEntries kw name entries seen acc = some (seen2, ms) →
      lookupSeen seen n = some l →
      ∃ t, lookupSeen seen2 n = some (l ++ t) := by
  induction entries with
  | nil =>
    intro seen acc seen2 ms n l h hl
    simp only [processEntries, Option.some.injEq, Prod.mk.injEq] at h
    obtain ⟨rfl, rfl⟩ := h
    exact ⟨[], by simpa using hl⟩
  | cons e0 rest ih =>
    intro seen acc seen2 ms n l h hl
    simp only [processEntries] at h
    cases huid : uid_of e0 with
    | none =>
      simp only [huid] at h
      exact ih seen acc seen2 ms n l h hl
    | some u0 =>
      simp only [huid] at h
      by_cases hu0 : u0 = ""
      · rw [if_pos hu0] at h
        exact ih seen acc seen2 ms n l h hl
      · rw [if_neg hu0] at h
        cases hlk : lookupSeen seen name with
        | none =>
          rw [hlk] at h
          exact Option.noConfusion h
        | some lst =>
          simp only [hlk] at h
          by_cases hmem : u0 ∈ lst
          · rw [if_pos hmem] at h
            exact ih seen acc seen2 ms n l h hl
          · rw [if_neg hmem] at h
            by_cases hn : n = name
            · subst hn
              rw [hl] at hlk
              obtain rfl : l = lst := Option.some.inj hlk
              have h1 : lookupSeen (updateSeen seen n (l ++ [u0])) n = some (l ++ [u0]) :=
                lookup_update_self seen n (l ++ [u0]) l hl
              obtain ⟨t, ht⟩ := ih _ _ seen2 ms n (l ++ [u0]) h h1
              exact ⟨[u0] ++ t, by rw [ht, List.append_assoc]⟩
            · have h1 : lookupSeen (updateSeen seen name (lst ++ [u0])) n = some l := by
                rw [lookup_update_other seen name n _ hn]
                exact hl
              exact ih _ _ seen2 ms n l h h1

/-- After the per-entry loop succeeds, every truthy identifier of a processed
entry is recorded in the source's final identifier list. -/
theorem processEntries_uids_recorded (kw : List String) (name : String)
    (entries : List Entry) :
    ∀ (seen : Seen) (acc : List Match) (seen2 : Seen) (ms : List Match),
      processEntries kw name entries seen acc = some (seen2, ms) →
      ∀ e ∈ entries, ∀ u, uid_of e = some u → u ≠ "" →
        ∃ l, lookupSeen seen2 name = some l ∧ u ∈ l := by
  induction entries with
  | nil =>
    intro seen acc seen2 ms _ e he
    simp at he
  | cons e0 rest ih =>
    intro seen acc seen2 ms h
    simp only [processEntries] at h
    cases huid : uid_of e0 with
    | none =>
      simp only [huid] at h
      intro e he u hu hne
      rcases List.mem_cons.mp he with rfl | he'
      · rw [huid] at hu
        exact absurd hu (by simp)
      · exact ih seen acc seen2 ms h e he' u hu hne
    | some u0 =>
      simp only [huid] at h
      by_cases hu0 : u0 = ""
      · rw [if_pos hu0] at h
        intro e he u hu hne
        rcases List.mem_cons.mp he with rfl | he'
        · rw [huid] at hu
          obtain rfl : u0 = u := Option.some.inj hu
          exact absurd hu0 hne
        · exact ih seen acc seen2 ms h e he' u hu hne
      · rw [if_neg hu0] at h
        cases hlk : lookupSeen seen name with
        | none =>
          rw [hlk] at h
          exact Option.noConfusion h
        | some lst =>
          simp only [hlk] at h
          by_cases hmem : u0 ∈ lst
          · rw [if_pos hmem] at h
            intro e he u hu hne
            rcases List.mem_cons.mp he with rfl | he'
            · rw [huid] at hu
              obtain rfl : u0 = u := Option.some.inj hu
              obtain ⟨t, ht⟩ :=
                processEntries_grows kw name rest seen acc seen2 ms name lst h hlk
              exact ⟨lst ++ t, ht, List.mem_append_left t hmem⟩
            · exact ih seen acc seen2 ms h e he' u hu hne
          · rw [if_neg hmem] at h
            intro e he u hu hne
            rcases List.mem_cons.mp he with rfl | he'
            · rw [huid] at hu
              obtain rfl : u0 = u := Option.some.inj hu
              have h1 : lookupSeen (updateSeen seen name (lst ++ [u0])) name =
                  some (lst ++ [u0]) :=
                lookup_update_self seen name (lst ++ [u0]) lst hlk
              obtain ⟨t, ht⟩ :=
                processEntries_grows kw name rest _ _ seen2 ms name (lst ++ [u0]) h h1
              refine ⟨lst ++ [u0] ++ t, ht, ?_⟩
              simp
            · exact ih _ _ seen2 ms h e he' u hu hne

/-- If every truthy identifier among the entries is already recorded for the
source, the per-entry loop changes nothing and emits no matches. -/
theorem processEntries_allSeen (kw : List String) (name : String)
    (entries : List Entry) :
    ∀ (seen : Seen) (acc : List Match),
      (∀ e ∈ entries, ∀ u, uid_of e = some u → u ≠ "" →
        ∃ l, lookupSeen seen name = some l ∧ u ∈ l) →
      processEntries kw name entries seen acc = some (seen, acc) := by
  induction entries with
  | nil => intro seen acc _; rfl
  | cons e0 rest ih =>
    intro seen acc hall
    have htail : ∀ e ∈ rest, ∀ u, uid_of e = some u → u ≠ "" →
        ∃ l, lookupSeen seen name = some l ∧ u ∈ l :=
      fun e he => hall e (List.mem_cons_of_mem e0 he)
    simp only [processEntries]
    cases huid : uid_of e0 with
    | none =>
      simp only [huid]
      exact ih seen acc htail
    | some u0 =>
      simp only [huid]
      by_cases hu0 : u0 = ""
      · rw [if_pos hu0]
        exact ih seen acc htail
      · rw [if_neg hu0]
        obtain ⟨l, hl, hmem⟩ := hall e0 (List.mem_cons_self e0 rest) u0 huid hu0
        simp only [hl]
        rw [if_pos hmem]
        exact ih seen acc htail

/-- With the source's key present, the per-entry loop cannot fail. -/
theorem processEntries_total (kw : List String) (name : String)
    (entries : List Entry) :
    ∀ (seen : Seen) (acc : List Match) (l : List String),
      lookupSeen seen name = some l →
      ∃ r, processEntries kw name entries seen acc = some r := by
  induction entries with
  | nil => intro seen acc l _; exact ⟨(seen, acc), rfl⟩
  | cons e0 rest ih =>
    intro seen acc l hl
    simp only [processEntries]
    cases huid : uid_of e0 with
    | none =>
      simp only [huid]
      exact ih seen acc l hl
    | some u0 =>
      simp only [huid]
      by_cases hu0 : u0 = ""
      · rw [if_pos hu0]
        exact ih seen acc l hl
      · rw [if_neg hu0]
        simp only [hl]
        by_cases hmem : u0 ∈ l
        · rw [if_pos hmem]
          exact ih seen acc l hl
        · rw [if_neg hmem]
          exact ih _ _ (l ++ [u0]) (lookup_update_self seen name (l ++ [u0]) l hl)

/-- Across the Runner's loop over all sources, a source's recorded identifier
list only ever grows by appending at the end. -/
theorem runSources_grows (gkw : List String) (feeds : List SourceFeed) :
    ∀ (seen : Seen) (acc : List Match) (seen2 : Seen) (ms : List Match)
      (n : String) (l : List String),
      runSources gkw feeds seen acc = some (seen2, ms) →
      lookupSeen seen n = some l →
      ∃ t, lookupSeen seen2 n = some (l ++ t) := by
  induction feeds with
  | nil =>
    intro seen acc seen2 ms n l h hl
    simp only [runSources, Option.some.injEq, Prod.mk.injEq] at h
    obtain ⟨rfl, rfl⟩ := h
    exact ⟨[], by simpa using hl⟩
  | cons s rest ih =>
    intro seen acc seen2 ms n l h hl
    simp only [runSources] at h
    cases hf : fetch_source s.name s.extra_keywords gkw s.entries
        (ensure_source_key seen s.name) with
    | none =>
      rw [hf] at h
      exact Option.noConfusion h
    | some r =>
      obtain ⟨seen1, ms1⟩ := r
      simp only [hf] at h
      have hl1 : lookupSeen (ensure_source_key seen s.name) n = some l :=
        lookup_ensure_of_some seen s.name n l hl
      have hf' : processEntries (gkw ++ s.extra_keywords) s.name s.entries
          (ensure_source_key seen s.name) [] = some (seen1, ms1) := hf
      obtain ⟨t1, ht1⟩ :=
        processEntries_grows (gkw ++ s.extra_keywords) s.name s.entries _ [] seen1 ms1 n l hf' hl1
      obtain ⟨t2, ht2⟩ := ih seen1 (acc ++ ms1) seen2 ms n (l ++ t1) h ht1
      exact ⟨t1 ++ t2, by rw [ht2, List.append_assoc]⟩

/-- The Runner's loop never fails: `ensure_source_key` establishes the key
each `fetch_source` call needs. -/
theorem runSources_total (gkw : List String) (feeds : List SourceFeed) :
    ∀ (seen : Seen) (acc : List Match),
      ∃ r, runSources gkw feeds seen acc = some r := by
  induction feeds with
  | nil => intro seen acc; exact ⟨(seen, acc), rfl⟩
  | cons s rest ih =>
    intro seen acc
    obtain ⟨l, hl⟩ := lookup_ensure_self seen s.name
    obtain ⟨r, hr⟩ := processEntries_total (gkw ++ s.extra_keywords) s.name
      s.entries (ensure_source_key seen s.name) [] l hl
    obtain ⟨seen1, ms1⟩ := r
    obtain ⟨r2, hr2⟩ := ih seen1 (acc ++ ms1)
    refine ⟨r2, ?_⟩
    have hf : fetch_source s.name s.extra_keywords gkw s.entries
        (ensure_source_key seen s.name) = some (seen1, ms1) := hr
    simp only [runSources, hf]
    exact hr2

theorem sanitize_no_semi (s : String) : (';' : Char) ∉ (sanitize s).data := by
  intro hmem
  have hmem' : (';' : Char) ∈ s.data.map escSemi := hmem
  obtain ⟨c, _, hc⟩ := List.mem_map.mp hmem'
  by_cases h : c = ';' <;> simp [escSemi, h] at hc

theorem sanitize_count_semi (s : String) : (sanitize s).data.count ';' = 0 :=
  List.count_eq_zero.mpr (sanitize_no_semi s)

theorem splitOnSemi_length (l : List Char) :
    (splitOnSemi l).length = l.count ';' + 1 := by
  induction l with
  | nil => rfl
  | cons c rest ih =>
    by_cases h : c = ';'
    · subst h
      simp [splitOnSemi, List.count_cons, ih]
    · simp only [splitOnSemi, if_neg h]
      cases hs : splitOnSemi rest with
      | nil =>
        rw [hs] at ih
        simp at ih
      | cons g gs =>
        rw [hs] at ih
        simp only [List.length_cons] at ih ⊢
        simp [List.count_cons, h, ← ih]

theorem semi_data : (";" : String).data = [';'] := rfl

theorem nl_data : ("\n" : String).data = ['\n'] := rfl

theorem formatLine_count_semi (rt : String) (m : Match) :
    (formatLine rt m).data.count ';' = rt.data.count ';' + 4 := by
  simp [formatLine, lineBody, String.data_append, List.count_append,
        sanitize_count_semi, semi_data, nl_data, List.count_cons, List.count_nil]

/-- C3, counterexample to the claim as stated: the code falls back from the
`summary` field to the `description` field also when `summary` is present but
empty, not only when it is absent.  On an entry with an empty `summary` and a
matching `description`, the code matches while the claim's reading does not. -/
theorem article_matches_keywords_claim_cex :
    article_matches_keywords
      ⟨some "x", some "", some "útok", none, none, none, none⟩ ["útok"] = true ∧
    matchesSpecC3
      ⟨some "x", some "", some "útok", none, none, none, none⟩ ["útok"] = false :=
  ⟨rfl, rfl⟩

/-- C3 (amended): `article_matches_keywords` returns true iff some keyword,
lower-cased, is a substring of the lower-cased haystack `title + " " +
summary`, where summary falls back from the `summary` field to the
`description` field if absent or empty; matching is case-insensitive
(keyword "bezpečnosť" matches a title containing "BEZPEČNOSŤ"). -/
theorem article_matches_keywords_spec :
    (∀ (e : Entry) (kws : List String),
      article_matches_keywords e kws = true ↔
        ∃ kw ∈ kws,
          pyIn (pyLower kw)
            (pyLower ((e.title.getD "") ++ " " ++
              pyOrS (e.summary.getD "") (e.description.getD ""))) = true) ∧
    article_matches_keywords
      ⟨some "BEZPEČNOSŤ na hraniciach", none, none, none, none, none, none⟩
      ["bezpečnosť"] = true := by
  constructor
  · intro e kws
    simp only [article_matches_keywords, List.any_eq_true, normalize_text_eq]
  · decide

/-- C4: every occurrence of the delimiter `;` in a record's free-text fields
is replaced by `,`, so a written line whose `run_time` stamp is
semicolon-free consists of exactly five `;`-separated columns. -/
theorem append_alert_log_delimiter_spec :
    (∀ s : String, (';' : Char) ∉ (sanitize s).data) ∧
    (∀ (rt : String) (m : Match), rt.data.count ';' = 0 →
      (splitOnSemi (formatLine rt m).data).length = 5) := by
  refine ⟨sanitize_no_semi, ?_⟩
  intro rt m h
  rw [splitOnSemi_length, formatLine_count_semi, h]

/-- Witness for C4 at a concrete timestamp and a match whose title
contains the delimiter. -/
theorem append_alert_log_delimiter_witness :
    (';' : Char) ∉ (sanitize "a;b").data ∧
    (splitOnSemi (formatLine "01.01.2026 10:00:00" sampleMatch).data).length = 5 :=
  ⟨append_alert_log_delimiter_spec.1 "a;b",
   append_alert_log_delimiter_spec.2 "01.01.2026 10:00:00" sampleMatch (by decide)⟩

/-- C5: `append_alert_log` builds exactly one line per match, and every line
carries the same run timestamp `rt`, computed once per invocation. -/
theorem append_alert_log_lines_spec :
    (∀ (rt : String) (ms : List Match), (alertLines rt ms).length = ms.length) ∧
    (∀ (rt : String) (ms : List Match) (line : String), line ∈ alertLines rt ms →
      ∃ m ∈ ms, line = rt ++ ";" ++ lineBody m) := by
  constructor
  · intro rt ms
    simp [alertLines]
  · intro rt ms line hline
    simp only [alertLines, List.mem_map] at hline
    obtain ⟨m, hm, hline'⟩ := hline
    exact ⟨m, hm, hline'.symm⟩

/-- Witness for C5 on a one-element match list. -/
theorem append_alert_log_lines_witness :
    (alertLines "t" [sampleMatch]).length = 1 ∧
    ∃ m ∈ [sampleMatch], formatLine "t" sampleMatch = "t" ++ ";" ++ lineBody m :=
  ⟨append_alert_log_lines_spec.1 "t" [sampleMatch],
   append_alert_log_lines_spec.2 "t" [sampleMatch] (formatLine "t" sampleMatch)
     (List.mem_singleton_self (formatLine "t" sampleMatch))⟩

/-- C6: `load_seen` returns the empty mapping when the backing file is absent
and when its content does not parse, and the parsed content otherwise. -/
theorem load_seen_spec :
    (∀ p : String → Option Seen, load_seen none p = []) ∧
    (∀ (c : String) (p : String → Option Seen), p c = none →
      load_seen (some c) p = []) ∧
    (∀ (c : String) (p : String → Option Seen) (m : Seen), p c = some m →
      load_seen (some c) p = m) := by
  refine ⟨fun p => rfl, ?_, ?_⟩
  · intro c p h
    simp [load_seen, h]
  · intro c p m h
    simp [load_seen, h]

/-- Witness for C6 with a failing and a succeeding JSON reader. -/
theorem load_seen_witness :
    load_seen none noParse = [] ∧
    load_seen (some "x") noParse = [] ∧
    load_seen (some "x") someParse = [("SME", ["a"])] :=
  ⟨load_seen_spec.1 noParse,
   load_seen_spec.2.1 "x" noParse rfl,
   load_seen_spec.2.2 "x" someParse [("SME", ["a"])] rfl⟩

/-- C8: permuting the keyword list does not change the boolean result of
`article_matches_keywords`, hence not which entries match. -/
theorem article_matches_keywords_perm (e : Entry) (kws1 kws2 : List String)
    (h : kws1.Perm kws2) :
    article_matches_keywords e kws1 = article_matches_keywords e kws2 := by
  simp only [article_matches_keywords]
  refine Bool.eq_iff_iff.mpr ?_
  simp only [List.any_eq_true]
  exact ⟨fun ⟨k, hk, hp⟩ => ⟨k, h.mem_iff.mp hk, hp⟩,
         fun ⟨k, hk, hp⟩ => ⟨k, h.mem_iff.mpr hk, hp⟩⟩

/-- Witness for C8 on a concrete two-keyword permutation. -/
theorem article_matches_keywords_perm_witness :
    article_matches_keywords sampleEntryA ["pasy", "útok"] =
      article_matches_keywords sampleEntryA ["útok", "pasy"] :=
  article_matches_keywords_perm sampleEntryA ["pasy", "útok"] ["útok", "pasy"]
    (List.Perm.swap "útok" "pasy" [])

/-- C1: per entry, in feed order, the identifier is the link, else the
feed-provided id, else the title; a falsy (empty/absent) identifier skips the
entry entirely; an identifier already in the source's seen sequence skips the
entry with no match; otherwise the identifier is appended to the seen
sequence unconditionally, before and independently of the keyword test, and a
match record is emitted only if the keyword test succeeds. -/
theorem fetch_source_step_spec (kw : List String) (name : String) (e : Entry)
    (rest : List Entry) (seen : Seen) (acc : List Match) (lst : List String)
    (hlk : lookupSeen seen name = some lst) :
    ((e.link.getD "" ≠ "" → uid_of e = some (e.link.getD "")) ∧
      (e.link.getD "" = "" → ∀ i, e.id = some i → i ≠ "" → uid_of e = some i) ∧
      (e.link.getD "" = "" → pyTruthy e.id = false → uid_of e = e.title)) ∧
    (pyTruthy (uid_of e) = false →
      processEntries kw name (e :: rest) seen acc =
        processEntries kw name rest seen acc) ∧
    (∀ u, uid_of e = some u → u ≠ "" → u ∈ lst →
      processEntries kw name (e :: rest) seen acc =
        processEntries kw name rest seen acc) ∧
    (∀ u, uid_of e = some u → u ≠ "" → u ∉ lst →
      processEntries kw name (e :: rest) seen acc =
        processEntries kw name rest (updateSeen seen name (lst ++ [u]))
          (if article_matches_keywords e kw then acc ++ [mkMatch name e]
           else acc)) := by
  refine ⟨⟨?_, ?_, ?_⟩, ?_, ?_, ?_⟩
  · intro h
    simp [uid_of, pyOrOS, h]
  · intro h i hi hine
    simp [uid_of, pyOrOS, h, hi, hine]
  · intro h hid
    cases hi : e.id with
    | none => simp [uid_of, pyOrOS, h, hi]
    | some s =>
      rw [hi] at hid
      simp only [pyTruthy, decide_eq_false_iff_not, not_not] at hid
      simp [uid_of, pyOrOS, h, hi, hid]
  · intro h
    cases huid : uid_of e with
    | none => simp only [processEntries, huid]
    | some u =>
      rw [huid] at h
      simp only [pyTruthy, decide_eq_false_iff_not, not_not] at h
      simp only [processEntries, huid]
      rw [if_pos h]
  · intro u hu hne hmem
    simp only [processEntries, hu]
    rw [if_neg hne]
    simp only [hlk]
    rw [if_pos hmem]
  · intro u hu hne hmem
    simp only [processEntries, hu]
    rw [if_neg hne]
    simp only [hlk]
    rw [if_neg hmem]

/-- Witness for C1: an already-seen identifier is skipped. -/
theorem fetch_source_step_spec_witness :
    processEntries [] "SME" [sampleEntryB] [("SME", ["a"])] [] =
      processEntries [] "SME" [] [("SME", ["a"])] [] :=
  (fetch_source_step_spec [] "SME" sampleEntryB [] [("SME", ["a"])] [] ["a"]
    rfl).2.2.1 "a" rfl (by decide) (by decide)

/-- C2: running the per-source pipeline a second time on the identical entry
sequence yields an empty match list and an unchanged seen mapping: every
entry with a truthy identifier was marked seen by the first run. -/
theorem fetch_source_idempotent (global_kw extra : List String) (name : String)
    (entries : List Entry) (seen seen2 : Seen) (ms : List Match)
    (h : fetch_source name extra global_kw entries seen = some (seen2, ms)) :
    fetch_source name extra global_kw entries seen2 = some (seen2, []) := by
  unfold fetch_source at h ⊢
  exact processEntries_allSeen (global_kw ++ extra) name entries seen2 []
    (fun e he u hu hne =>
      processEntries_uids_recorded (global_kw ++ extra) name entries seen []
        seen2 ms h e he u hu hne)

/-- Witness for C2: one new entry is recorded by a first run, and a second
run over the same entry emits no match. -/
theorem fetch_source_idempotent_witness :
    fetch_source "SME" [] [] [sampleEntryB] [("SME", ["a"])] =
      some ([("SME", ["a"])], []) :=
  fetch_source_idempotent [] [] "SME" [sampleEntryB] [("SME", [])]
    [("SME", ["a"])] [] rfl

/-- C7: the seen sequence of a source only grows: `ensure_source_key`, the
per-entry loop and the Runner's loop each preserve every previously recorded
identifier in its original position (the old sequence stays a prefix). -/
theorem seen_monotone_spec :
    (∀ (seen : Seen) (name n : String) (l : List String),
      lookupSeen seen n = some l →
      lookupSeen (ensure_source_key seen name) n = some l) ∧
    (∀ (kw : List String) (name : String) (entries : List Entry)
      (seen : Seen) (acc : List Match) (seen2 : Seen) (ms : List Match)
      (n : String) (l : List String),
      processEntries kw name entries seen acc = some (seen2, ms) →
      lookupSeen seen n = some l →
      ∃ t, lookupSeen seen2 n = some (l ++ t)) ∧
    (∀ (gkw : List String) (feeds : List SourceFeed) (seen : Seen)
      (acc : List Match) (seen2 : Seen) (ms : List Match)
      (n : String) (l : List String),
      runSources gkw feeds seen acc = some (seen2, ms) →
      lookupSeen seen n = some l →
      ∃ t, lookupSeen seen2 n = some (l ++ t)) :=
  ⟨fun seen name n l h => lookup_ensure_of_some seen name n l h,
   fun kw name entries seen acc seen2 ms n l h hl =>
     processEntries_grows kw name entries seen acc seen2 ms n l h hl,
   fun gkw feeds seen acc seen2 ms n l h hl =>
     runSources_grows gkw feeds seen acc seen2 ms n l h hl⟩

/-- Witness for C7: a concrete run appends to the recorded list. -/
theorem seen_monotone_witness :
    ∃ t, lookupSeen [("SME", ["a", "https://x/a"])] "SME" = some (["a"] ++ t) :=
  seen_monotone_spec.2.2 [] [⟨"SME", [], [sampleEntryA]⟩] [("SME", ["a"])] []
    [("SME", ["a", "https://x/a"])] [] "SME" ["a"] rfl rfl

/-- C9: a run with zero matches leaves the alert log completely unchanged and
does not invoke the notifier. -/
theorem main_no_matches_frame (feeds : List SourceFeed) (seen0 : Seen)
    (log : Option String) (rt : String) (seen1 : Seen)
    (h : runSources KEYWORDS feeds seen0 [] = some (seen1, [])) :
    main_model feeds seen0 log rt = some (seen1, log, false) := by
  simp [main_model, h]

/-- Witness for C9 on the empty feed list. -/
theorem main_no_matches_frame_witness :
    main_model [] [] (some alertHeader) "t" = some ([], some alertHeader, false) :=
  main_no_matches_frame [] [] (some alertHeader) "t" [] rfl

/-- C10: `ensure_source_key` establishes the key that `fetch_source`'s direct
indexing of the seen mapping needs; with the key present `fetch_source` never
fails, and under the Runner's call pattern the missing-key error branch is
unreachable. -/
theorem seen_key_precondition_spec :
    (∀ (seen : Seen) (name : String),
      ∃ l, lookupSeen (ensure_source_key seen name) name = some l) ∧
    (∀ (name : String) (extra gkw : List String) (entries : List Entry)
      (seen : Seen) (l : List String),
      lookupSeen seen name = some l →
      ∃ r, fetch_source name extra gkw entries seen = some r) ∧
    (∀ (gkw : List String) (feeds : List SourceFeed) (seen : Seen)
      (acc : List Match),
      ∃ r, runSources gkw feeds seen acc = some r) :=
  ⟨lookup_ensure_self,
   fun name extra gkw entries seen l hl =>
     processEntries_total (gkw ++ extra) name entries seen [] l hl,
   runSources_total⟩

/-- Witness for C10 at concrete inputs. -/
theorem seen_key_precondition_witness :
    (∃ l, lookupSeen (ensure_source_key [] "SME") "SME" = some l) ∧
    (∃ r, fetch_source "SME" [] [] [sampleEntryB] [("SME", [])] = some r) ∧
    (∃ r, runSources [] [⟨"SME", [], [sampleEntryB]⟩] [] [] = some r) :=
  ⟨seen_key_precondition_spec.1 [] "SME",
   seen_key_precondition_spec.2.1 "SME" [] [] [sampleEntryB] [("SME", [])] [] rfl,
   seen_key_precondition_spec.2.2 [] [⟨"SME", [], [sampleEntryB]⟩] [] []⟩
